import Mathlib

/-!
Verification of the `FuzzyTrie` core (fuzzy prefix-tree search engine).

Strings are modelled as `List Char`, the JavaScript number `Infinity`
(the default value of `maxAllowedDistance`) as the `none` case of
`Option Nat`, and the JavaScript `Map` of child nodes as an association
list in key-insertion order, matching `Map`'s iteration contract.
-/

set_option maxHeartbeats 1600000

namespace Crucai

open List (Perm)
open scoped List

/-- Substitution cost of the dynamic program: `0` when the two characters
are equal, else `1`. -/
def substCost (x y : Char) : Nat := if x = y then 0 else 1

/-- The true Levenshtein (edit) distance between two strings: minimum
number of single-character insertions, deletions, or substitutions
transforming one into the other.  This is the mathematical reference
definition the spec's claims speak about. -/
def lev : List Char → List Char → Nat
  | [], ys => ys.length
  | xs, [] => xs.length
  | x :: xs, y :: ys =>
      min (lev xs (y :: ys) + 1)
        (min (lev (x :: xs) ys + 1) (lev xs ys + substCost x y))
termination_by xs ys => xs.length + ys.length

@[simp] theorem lev_nil_left (ys : List Char) : lev [] ys = ys.length := by
  cases ys <;> simp [lev]

@[simp] theorem lev_nil_right (xs : List Char) : lev xs [] = xs.length := by
  cases xs <;> simp [lev]

theorem lev_cons_cons (x y : Char) (xs ys : List Char) :
    lev (x :: xs) (y :: ys) =
      min (lev xs (y :: ys) + 1)
        (min (lev (x :: xs) ys + 1) (lev xs ys + substCost x y)) := by
  rw [lev]

/-- The distance budget: `some m` models a finite `maxAllowedDistance`,
`none` models the default `Infinity`. -/
abbrev Budget := Option Nat

/-- `budgetLt b v` models the JavaScript comparison `v > maxAllowed`
(always false when `maxAllowed` is `Infinity`). -/
def budgetLt (b : Budget) (v : Nat) : Bool :=
  match b with
  | none => false
  | some m => decide (m < v)

/-- The sentinel `maxAllowed + 1` returned by the early exits.  The
early-exit branches are unreachable for the infinite budget, so the
`none` case is arbitrary. -/
def sentinel : Budget → Nat
  | none => 0
  | some m => m + 1

/-- One inner loop of `calculateLevenshteinDistance` (lines 119–141 of
the source): given the previous DP row and the cell to the left, compute
the remaining cells of the current row for the characters of the first
(shorter) string.  `min (left+1) (min (up+1) (diag+subCost))` is
`Math.min(insertionCost, deletionCost, substitutionOrMatchCost)`. -/
def rowStep (secondStringChar : Char) :
    List Char → Nat → List Nat → List Nat
  | [], _, _ => []
  | c :: cs, left, diag :: up :: rest =>
      let cell := min (left + 1) (min (up + 1) (diag + substCost c secondStringChar))
      cell :: rowStep secondStringChar cs cell (up :: rest)
  | _ :: _, _, _ => []

/-- The outer loop of `calculateLevenshteinDistance` (lines 109–150):
iterate over the characters of the second (longer) string, maintaining
the previous DP row; after each row, early-exit with the sentinel when
the row minimum exceeds the budget; at the end return
`previousDistanceRow[firstStringLength]`. -/
def levRows (firstString : List Char) (maxAllowed : Budget) :
    List Char → Nat → List Nat → Nat
  | [], _, previousDistanceRow =>
      previousDistanceRow.getD firstString.length 0
  | secondStringChar :: remaining, processed, previousDistanceRow =>
      let currentIndex := processed + 1
      let cells := rowStep secondStringChar firstString currentIndex previousDistanceRow
      let minimumDistanceInRow := cells.foldl Nat.min currentIndex
      if budgetLt maxAllowed minimumDistanceInRow then sentinel maxAllowed
      else levRows firstString maxAllowed remaining currentIndex (currentIndex :: cells)

/-- `calculateLevenshteinDistance` (source lines 87–154): returns 0 for
equal strings, swaps so the first string is the shorter one, early-exits
with the sentinel when the length gap exceeds the budget, and otherwise
runs the row dynamic program starting from the row `[0, 1, …, m]`. -/
def calculateLevenshteinDistance (firstString secondString : List Char)
    (maxAllowed : Budget := none) : Nat :=
  if firstString = secondString then 0
  else
    let a := if secondString.length < firstString.length then secondString else firstString
    let b := if secondString.length < firstString.length then firstString else secondString
    if budgetLt maxAllowed (b.length - a.length) then sentinel maxAllowed
    else levRows a maxAllowed b 0 (List.range (a.length + 1))

theorem nat_min_add (a b c : Nat) : min a b + c = min (a + c) (b + c) := by
  omega

theorem substCost_comm (x y : Char) : substCost x y = substCost y x := by
  simp [substCost, eq_comm]

@[simp] theorem lev_self (xs : List Char) : lev xs xs = 0 := by
  induction xs with
  | nil => simp
  | cons x xs ih => simp [lev_cons_cons, substCost, ih]

theorem lev_comm (xs : List Char) : ∀ ys, lev xs ys = lev ys xs := by
  induction xs with
  | nil => intro ys; cases ys <;> simp
  | cons x xs ihx =>
    intro ys
    induction ys with
    | nil => simp
    | cons y ys ihy =>
      rw [lev_cons_cons, lev_cons_cons, ihx (y :: ys), ihy, ihx ys,
        substCost_comm]
      omega

theorem length_sub_le_lev (xs : List Char) :
    ∀ ys : List Char, ys.length - xs.length ≤ lev xs ys := by
  induction xs with
  | nil => intro ys; simp
  | cons x xs ihx =>
    intro ys
    induction ys with
    | nil => simp
    | cons y ys ihy =>
      have h1 := ihx (y :: ys)
      have h3 := ihx ys
      rw [lev_cons_cons]
      simp only [List.length_cons] at *
      omega

theorem length_sub_le_lev' (xs ys : List Char) :
    xs.length - ys.length ≤ lev xs ys := by
  rw [lev_comm]; exact length_sub_le_lev ys xs

theorem lev_eq_zero_iff (xs : List Char) :
    ∀ ys, lev xs ys = 0 ↔ xs = ys := by
  induction xs with
  | nil =>
    intro ys
    cases ys <;> simp
  | cons x xs ihx =>
    intro ys
    cases ys with
    | nil => simp
    | cons y ys =>
      rw [lev_cons_cons]
      constructor
      · intro h
        have h3 : lev xs ys + substCost x y = 0 := by omega
        have hxy : x = y := by
          by_contra hne
          simp [substCost, hne] at h3
        have : xs = ys := (ihx ys).1 (by omega)
        simp [hxy, this]
      · rintro h
        cases h
        simp [substCost, (ihx xs).2 rfl]

/-- The Levenshtein recurrence at the *last* characters of both strings:
this is exactly the cell recurrence of the source's dynamic program,
`min (insertionCost) (min (deletionCost) (substitutionOrMatchCost))`. -/
theorem lev_concat_concat (x y : Char) :
    ∀ u v : List Char,
      lev (u ++ [x]) (v ++ [y]) =
        min (lev u (v ++ [y]) + 1)
          (min (lev (u ++ [x]) v + 1) (lev u v + substCost x y)) := by
  intro u
  induction u with
  | nil =>
    intro v
    induction v with
    | nil => simp [lev_cons_cons]
    | cons q v' ihv =>
      simp only [List.cons_append, List.nil_append] at ihv ⊢
      rw [lev_cons_cons x q [] (v' ++ [y]), ihv, lev_cons_cons x q [] v']
      simp only [lev_nil_left, List.length_append, List.length_cons,
        List.length_nil]
      omega
  | cons p u' ihu =>
    intro v
    induction v with
    | nil =>
      have h2 := ihu []
      simp only [List.cons_append, List.nil_append] at h2 ⊢
      rw [lev_cons_cons p y (u' ++ [x]) [], h2, lev_cons_cons p y u' []]
      simp only [lev_nil_right, lev_nil_left, List.length_append,
        List.length_cons, List.length_nil]
      omega
    | cons q v' ihv =>
      have h1 := ihu (q :: v')
      have h2 := ihv
      have h3 := ihu v'
      simp only [List.cons_append, List.nil_append] at h1 h2 h3 ⊢
      rw [lev_cons_cons p q (u' ++ [x]) (v' ++ [y]), h1, h2, h3,
        lev_cons_cons p q u' (v' ++ [y]), lev_cons_cons p q (u' ++ [x]) v',
        lev_cons_cons p q u' v']
      simp only [nat_min_add]
      rw [le_antisymm_iff]
      simp only [le_min_iff, min_le_iff]
      omega

theorem foldl_min_le_init (l : List Nat) : ∀ init, l.foldl Nat.min init ≤ init := by
  induction l with
  | nil => intro init; simp
  | cons a l ih =>
    intro init
    simp only [List.foldl_cons]
    exact le_trans (ih _) (Nat.min_le_left _ _)

theorem foldl_min_le_mem (l : List Nat) :
    ∀ init x, x ∈ l → l.foldl Nat.min init ≤ x := by
  induction l with
  | nil => intro _ x hx; cases hx
  | cons a l ih =>
    intro init x hx
    simp only [List.foldl_cons]
    rcases List.mem_cons.1 hx with rfl | hx
    · exact le_trans (foldl_min_le_init l _) (Nat.min_le_right _ _)
    · exact ih _ _ hx

theorem budgetLt_eq_false_of_le {k : Budget} {x y : Nat}
    (h : budgetLt k x = false) (hle : y ≤ x) : budgetLt k y = false := by
  cases k with
  | none => rfl
  | some m => simp [budgetLt] at h ⊢; omega

/-- Extending the second string by one character cannot drop the minimum of
`lev` over the prefixes of the first string: for every prefix-cell of the
new row there is a prefix-cell of the previous row that is no larger. -/
theorem exists_take_le_concat (u v : List Char) (y : Char) :
    ∀ i : Nat, ∃ j, lev (u.take j) v ≤ lev (u.take i) (v ++ [y]) := by
  intro i
  induction i with
  | zero => exact ⟨0, by simp⟩
  | succ i ih =>
    by_cases hi : i < u.length
    · have ht : u.take (i + 1) = u.take i ++ [u[i]] := by
        rw [List.take_succ, List.getElem?_eq_getElem hi]
        rfl
      have hrec := lev_concat_concat u[i] y (u.take i) v
      rw [← ht] at hrec
      obtain ⟨j0, hj0⟩ := ih
      rcases (by omega :
          lev (u.take (i + 1)) (v ++ [y]) = lev (u.take i) (v ++ [y]) + 1 ∨
          lev (u.take (i + 1)) (v ++ [y]) = lev (u.take (i + 1)) v + 1 ∨
          lev (u.take (i + 1)) (v ++ [y]) = lev (u.take i) v + substCost u[i] y)
        with h | h | h
      · exact ⟨j0, by omega⟩
      · exact ⟨i + 1, by omega⟩
      · exact ⟨i, by omega⟩
    · have heq : u.take (i + 1) = u.take i := by
        rw [List.take_of_length_le (by omega), List.take_of_length_le (by omega)]
      rw [heq]
      exact ih

/-- Branch-and-bound justification: the minimum of `lev` over the prefixes
of `u` against `v` is a lower bound for `lev u (v ++ w)` — the final
distance is at least some cell of every intermediate row. -/
theorem exists_take_le_append (u : List Char) :
    ∀ w v : List Char, ∃ j, lev (u.take j) v ≤ lev u (v ++ w) := by
  intro w
  induction w with
  | nil => intro v; exact ⟨u.length, by simp⟩
  | cons y w ihw =>
    intro v
    obtain ⟨j1, hj1⟩ := ihw (v ++ [y])
    obtain ⟨j, hj⟩ := exists_take_le_concat u v y j1
    refine ⟨j, le_trans hj (le_trans hj1 (le_of_eq ?_))⟩
    rw [List.append_assoc, List.singleton_append]

theorem take_mem_scanl :
    ∀ (as : List Char) (u0 : List Char) (i : Nat),
      u0 ++ as.take i ∈ List.scanl (fun acc c => acc ++ [c]) u0 as := by
  intro as
  induction as with
  | nil => intro u0 i; simp
  | cons c cs ih =>
    intro u0 i
    cases i with
    | zero => simp [List.scanl_cons]
    | succ i =>
      simp only [List.take_succ_cons, List.scanl_cons, List.singleton_append]
      refine List.mem_cons_of_mem _ ?_
      have := ih (u0 ++ [c]) i
      simpa [List.append_assoc] using this

theorem row_getD (v : List Char) :
    ∀ as u : List Char,
      ((List.scanl (fun acc c => acc ++ [c]) u as).map (fun p => lev p v)).getD
          as.length 0 = lev (u ++ as) v := by
  intro as
  induction as with
  | nil => intro u; simp
  | cons c cs ih =>
    intro u
    simp only [List.scanl_cons, List.singleton_append, List.map_cons,
      List.length_cons, List.getD_cons_succ]
    rw [ih (u ++ [c])]
    simp

/-- The head of a `scanl` is its seed. -/
theorem scanl_head_tail (u : List Char) (as : List Char) :
    List.scanl (fun acc c => acc ++ [c]) u as
      = u :: (List.scanl (fun acc c => acc ++ [c]) u as).tail := by
  cases as <;> simp [List.scanl_cons]

/-- Row invariant of the inner loop: started from the cell
`lev u (v ++ [y])` on the left and the previous row of prefix distances
against `v`, `rowStep` produces the remaining cells of the row of prefix
distances against `v ++ [y]`. -/
theorem rowStep_spec (y : Char) (v : List Char) :
    ∀ as u : List Char,
      rowStep y as (lev u (v ++ [y]))
          ((List.scanl (fun acc c => acc ++ [c]) u as).map (fun p => lev p v))
        = ((List.scanl (fun acc c => acc ++ [c]) u as).tail).map
            (fun p => lev p (v ++ [y])) := by
  intro as
  induction as with
  | nil => intro u; simp [rowStep]
  | cons c cs ih =>
    intro u
    have hs := scanl_head_tail (u ++ [c]) cs
    have ih' := ih (u ++ [c])
    rw [hs] at ih'
    simp only [List.map_cons, List.tail_cons] at ih'
    simp only [List.scanl_cons, List.singleton_append, List.map_cons,
      List.tail_cons]
    rw [hs]
    simp only [List.map_cons]
    simp only [rowStep]
    rw [(lev_concat_concat c y u v).symm, ih']

/-- Building one full row: prepending `currentIndex` to the `rowStep`
cells yields exactly the row of prefix distances against `v ++ [y]`. -/
theorem newRow_spec (a : List Char) (v : List Char) (y : Char) :
    (v.length + 1) ::
        rowStep y a (v.length + 1)
          ((List.scanl (fun acc c => acc ++ [c]) [] a).map (fun p => lev p v))
      = (List.scanl (fun acc c => acc ++ [c]) [] a).map
          (fun p => lev p (v ++ [y])) := by
  have hlen : lev [] (v ++ [y]) = v.length + 1 := by simp
  have h := rowStep_spec y v a []
  rw [hlen] at h
  rw [h, scanl_head_tail [] a]
  simp only [List.map_cons, List.tail_cons, lev_nil_left, List.length_append,
    List.length_cons, List.length_nil]

/-- The minimum of the freshly computed row is at most
`lev a (v ++ y :: bs)`, so the branch-and-bound early exit cannot fire
while the final distance is still within budget. -/
theorem rowMin_le (a v : List Char) (y : Char) (bs : List Char) :
    (rowStep y a (v.length + 1)
        ((List.scanl (fun acc c => acc ++ [c]) [] a).map
          (fun p => lev p v))).foldl Nat.min (v.length + 1)
      ≤ lev a (v ++ y :: bs) := by
  obtain ⟨j, hj⟩ := exists_take_le_append a bs (v ++ [y])
  have hj' : lev (a.take j) (v ++ [y]) ≤ lev a (v ++ y :: bs) := by
    refine le_trans hj (le_of_eq ?_)
    rw [List.append_assoc, List.singleton_append]
  have hmem : a.take j ∈ List.scanl (fun acc c => acc ++ [c]) [] a := by
    simpa using take_mem_scanl a [] j
  rw [scanl_head_tail [] a] at hmem
  rcases List.mem_cons.1 hmem with hnil | htail
  · have : lev (a.take j) (v ++ [y]) = v.length + 1 := by
      rw [hnil]; simp
    refine le_trans (foldl_min_le_init _ _) (by omega)
  · have hcell : lev (a.take j) (v ++ [y]) ∈
        rowStep y a (v.length + 1)
          ((List.scanl (fun acc c => acc ++ [c]) [] a).map (fun p => lev p v)) := by
      have hrs := rowStep_spec y v a []
      have hlen : lev [] (v ++ [y]) = v.length + 1 := by simp
      rw [hlen] at hrs
      rw [hrs]
      exact List.mem_map_of_mem _ htail
    exact le_trans (foldl_min_le_mem _ _ _ hcell) hj'

/-- Completed run of the outer loop: when the true distance of the full
strings is within budget, no early exit fires and the loop returns that
true distance. -/
theorem levRows_no_exit (a : List Char) (k : Budget) :
    ∀ bs v : List Char,
      budgetLt k (lev a (v ++ bs)) = false →
      levRows a k bs v.length
          ((List.scanl (fun acc c => acc ++ [c]) [] a).map (fun p => lev p v))
        = lev a (v ++ bs) := by
  intro bs
  induction bs with
  | nil =>
    intro v _
    simp only [levRows]
    have := row_getD v a []
    simp only [List.nil_append] at this
    rw [this, List.append_nil]
  | cons y bs ih =>
    intro v H
    have Hmin : budgetLt k
        ((rowStep y a (v.length + 1)
          ((List.scanl (fun acc c => acc ++ [c]) [] a).map
            (fun p => lev p v))).foldl Nat.min (v.length + 1)) = false :=
      budgetLt_eq_false_of_le H (rowMin_le a v y bs)
    simp only [levRows, Hmin, Bool.false_eq_true, if_false]
    rw [newRow_spec a v y]
    have H' : budgetLt k (lev a ((v ++ [y]) ++ bs)) = false := by
      rwa [List.append_assoc, List.singleton_append]
    have := ih (v ++ [y]) H'
    simp only [List.length_append, List.length_cons, List.length_nil] at this
    rw [this, List.append_assoc, List.singleton_append]

/-- Every run of the outer loop under a finite budget returns either the
true distance of the full strings or the sentinel `m + 1`. -/
theorem levRows_cases (a : List Char) (m : Nat) :
    ∀ bs v : List Char,
      levRows a (some m) bs v.length
          ((List.scanl (fun acc c => acc ++ [c]) [] a).map (fun p => lev p v))
        = lev a (v ++ bs)
      ∨ levRows a (some m) bs v.length
          ((List.scanl (fun acc c => acc ++ [c]) [] a).map (fun p => lev p v))
        = m + 1 := by
  intro bs
  induction bs with
  | nil =>
    intro v
    left
    simp only [levRows]
    have := row_getD v a []
    simp only [List.nil_append] at this
    rw [this, List.append_nil]
  | cons y bs ih =>
    intro v
    by_cases hexit : budgetLt (some m)
        ((rowStep y a (v.length + 1)
          ((List.scanl (fun acc c => acc ++ [c]) [] a).map
            (fun p => lev p v))).foldl Nat.min (v.length + 1)) = true
    · right
      simp only [levRows, hexit, if_true, sentinel]
    · rw [Bool.not_eq_true] at hexit
      simp only [levRows, hexit, Bool.false_eq_true, if_false]
      rw [newRow_spec a v y]
      have := ih (v ++ [y])
      simp only [List.length_append, List.length_cons, List.length_nil] at this
      rcases this with h | h
      · left
        rw [h, List.append_assoc, List.singleton_append]
      · right
        rw [h]

/-- The initial DP row `[0, 1, …, m]` is the row of prefix distances
against the empty second prefix. -/
theorem initial_row (a : List Char) :
    List.range (a.length + 1)
      = (List.scanl (fun acc c => acc ++ [c]) [] a).map (fun p => lev p []) := by
  have general :
      ∀ as u0 : List Char,
        (List.scanl (fun acc c => acc ++ [c]) u0 as).map (fun p => lev p [])
          = List.range' u0.length (as.length + 1) := by
    intro as
    induction as with
    | nil => intro u0; simp [List.range']
    | cons c cs ih =>
      intro u0
      simp only [List.scanl_cons, List.singleton_append, List.map_cons,
        List.length_cons]
      rw [ih (u0 ++ [c])]
      simp [List.range'_succ]
  rw [general a [], List.range_eq_range']
  simp

/-- `withinBudget v k` says `v ≤ maxAllowed`, where `none` is `Infinity`. -/
def withinBudget (v : Nat) : Budget → Prop
  | none => True
  | some m => v ≤ m

theorem withinBudget_iff (v : Nat) (k : Budget) :
    withinBudget v k ↔ budgetLt k v = false := by
  cases k with
  | none => simp [withinBudget, budgetLt]
  | some m => simp [withinBudget, budgetLt, Nat.not_lt]

/-- When the true distance is within budget no early exit fires, and
`calculateLevenshteinDistance` returns the true Levenshtein distance. -/
theorem calc_exact (a b : List Char) (k : Budget)
    (H : budgetLt k (lev a b) = false) :
    calculateLevenshteinDistance a b k = lev a b := by
  simp only [calculateLevenshteinDistance]
  by_cases heq : a = b
  · rw [if_pos heq, heq, lev_self]
  · rw [if_neg heq]
    by_cases hlt : b.length < a.length
    · simp only [if_pos hlt]
      have Hc : budgetLt k (lev b a) = false := by rwa [lev_comm]
      have hex : budgetLt k (a.length - b.length) = false :=
        budgetLt_eq_false_of_le Hc (length_sub_le_lev b a)
      simp only [hex, Bool.false_eq_true, if_false]
      have h0 := levRows_no_exit b k a []
      simp only [List.nil_append, List.length_nil] at h0
      rw [initial_row b, h0 Hc]
      exact lev_comm b a
    · simp only [if_neg hlt]
      have hex : budgetLt k (b.length - a.length) = false :=
        budgetLt_eq_false_of_le H (length_sub_le_lev a b)
      simp only [hex, Bool.false_eq_true, if_false]
      have h0 := levRows_no_exit a k b []
      simp only [List.nil_append, List.length_nil] at h0
      rw [initial_row a, h0 H]

/-- Under a finite budget the function always returns either the true
distance or the sentinel `m + 1`. -/
theorem calc_dichotomy (a b : List Char) (m : Nat) :
    calculateLevenshteinDistance a b (some m) = lev a b ∨
      calculateLevenshteinDistance a b (some m) = m + 1 := by
  simp only [calculateLevenshteinDistance]
  by_cases heq : a = b
  · left; rw [if_pos heq, heq, lev_self]
  · rw [if_neg heq]
    by_cases hlt : b.length < a.length
    · simp only [if_pos hlt]
      by_cases hex : budgetLt (some m) (a.length - b.length) = true
      · right; simp only [hex, if_true, sentinel]
      · rw [Bool.not_eq_true] at hex
        simp only [hex, Bool.false_eq_true, if_false]
        have h0 := levRows_cases b m a []
        simp only [List.nil_append, List.length_nil] at h0
        rw [initial_row b]
        rcases h0 with h | h
        · left; rw [h]; exact lev_comm b a
        · right; exact h
    · simp only [if_neg hlt]
      by_cases hex : budgetLt (some m) (b.length - a.length) = true
      · right; simp only [hex, if_true, sentinel]
      · rw [Bool.not_eq_true] at hex
        simp only [hex, Bool.false_eq_true, if_false]
        have h0 := levRows_cases a m b []
        simp only [List.nil_append, List.length_nil] at h0
        rw [initial_row a]
        exact h0

/-- The filtering semantics of the bounded distance: the computed value
is within the budget exactly when the true distance is. -/
theorem calc_le_iff (a b : List Char) (m : Nat) :
    calculateLevenshteinDistance a b (some m) ≤ m ↔ lev a b ≤ m := by
  constructor
  · intro h
    rcases calc_dichotomy a b m with hd | hd
    · rwa [hd] at h
    · rw [hd] at h; omega
  · intro h
    rw [calc_exact a b (some m) (by simp [budgetLt]; omega)]
    exact h

theorem lev_book_back : lev "book".toList "back".toList = 2 := by
  have h := calc_exact "book".toList "back".toList none rfl
  rw [← h]
  decide

theorem lev_abcd_xyab : lev "abcd".toList "xyab".toList = 4 := by
  have h := calc_exact "abcd".toList "xyab".toList none rfl
  rw [← h]
  decide

/-- **C1**: whenever the true Levenshtein distance `lev a b` is within
`maxAllowed` (a natural number or infinity), `calculateLevenshteinDistance`
returns exactly `lev a b`; in particular it returns 0 whenever the two
strings are equal, and with the default infinite budget it returns the
true distance for all inputs, e.g. 3 for "kitten" vs "sitting". -/
theorem claim1_distance_exact :
    (∀ (a b : List Char) (k : Budget), withinBudget (lev a b) k →
        calculateLevenshteinDistance a b k = lev a b)
      ∧ (∀ (a : List Char) (k : Budget), calculateLevenshteinDistance a a k = 0)
      ∧ (∀ a b : List Char, calculateLevenshteinDistance a b none = lev a b)
      ∧ calculateLevenshteinDistance "kitten".toList "sitting".toList none = 3 := by
  refine ⟨?_, ?_, ?_, by decide⟩
  · intro a b k h
    exact calc_exact a b k ((withinBudget_iff _ _).1 h)
  · intro a k
    simp [calculateLevenshteinDistance]
  · intro a b
    exact calc_exact a b none rfl

/-- Witness for C1 at a concrete input: "book" vs "back" is within the
budget 3, and the function returns the true distance there. -/
theorem claim1_distance_exact_witness :
    withinBudget (lev "book".toList "back".toList) (some 3) ∧
      calculateLevenshteinDistance "book".toList "back".toList (some 3)
        = lev "book".toList "back".toList := by
  have hw : withinBudget (lev "book".toList "back".toList) (some 3) := by
    rw [lev_book_back]; simp [withinBudget]
  exact ⟨hw, claim1_distance_exact.1 "book".toList "back".toList (some 3) hw⟩

/-- **C2 counterexample**: at `a = "abcd"`, `b = "xyab"`,
`maxAllowed = 2` the true distance is 4 > 2, yet the function completes
every DP row (each row minimum stays ≤ 2) and returns the true distance
4 instead of the sentinel `2 + 1 = 3`. -/
theorem claim2_counterexample :
    lev "abcd".toList "xyab".toList > 2 ∧
      calculateLevenshteinDistance "abcd".toList "xyab".toList (some 2) ≠ 2 + 1 := by
  constructor
  · rw [lev_abcd_xyab]; omega
  · decide

/-- **C2 (amended)**: if the true distance exceeds a finite `maxAllowed`
then the function returns either the sentinel `maxAllowed + 1` (when an
early exit fires) or the true distance itself (when the DP completes);
in every case the returned value is strictly greater than `maxAllowed`,
so an over-budget comparison is still signalled, but not always by the
sentinel. -/
theorem claim2_over_budget (a b : List Char) (m : Nat)
    (h : lev a b > m) :
    (calculateLevenshteinDistance a b (some m) = m + 1 ∨
        calculateLevenshteinDistance a b (some m) = lev a b)
      ∧ calculateLevenshteinDistance a b (some m) > m := by
  rcases calc_dichotomy a b m with hd | hd
  · exact ⟨Or.inr hd, by rw [hd]; exact h⟩
  · exact ⟨Or.inl hd, by rw [hd]; omega⟩

/-- Witness for the amended C2 at the counterexample input. -/
theorem claim2_over_budget_witness :
    lev "abcd".toList "xyab".toList > 2 ∧
      ((calculateLevenshteinDistance "abcd".toList "xyab".toList (some 2) = 2 + 1 ∨
          calculateLevenshteinDistance "abcd".toList "xyab".toList (some 2)
            = lev "abcd".toList "xyab".toList)
        ∧ calculateLevenshteinDistance "abcd".toList "xyab".toList (some 2) > 2) := by
  have hgt : lev "abcd".toList "xyab".toList > 2 := by rw [lev_abcd_xyab]; omega
  exact ⟨hgt, claim2_over_budget "abcd".toList "xyab".toList 2 hgt⟩

/-- **C5**: when the absolute length difference of the two strings
exceeds the budget, the function returns the sentinel `maxAllowed + 1`
without running the DP; e.g. `distance("a", "abcdef", 2) = 3`. -/
theorem claim5_length_gap :
    (∀ (a b : List Char) (k : Budget),
        budgetLt k (max a.length b.length - min a.length b.length) = true →
        calculateLevenshteinDistance a b k = sentinel k)
      ∧ calculateLevenshteinDistance "a".toList "abcdef".toList (some 2) = 3 := by
  refine ⟨?_, by decide⟩
  intro a b k h
  have hne : a ≠ b := by
    intro hab
    subst hab
    simp only [Nat.max_self, Nat.min_self, Nat.sub_self] at h
    cases k <;> simp [budgetLt] at h
  simp only [calculateLevenshteinDistance, if_neg hne]
  by_cases hlt : b.length < a.length
  · simp only [if_pos hlt]
    have heq : a.length - b.length
        = max a.length b.length - min a.length b.length := by omega
    have h' : budgetLt k (a.length - b.length) = true := by rwa [heq]
    simp only [h', if_true]
  · simp only [if_neg hlt]
    have heq : b.length - a.length
        = max a.length b.length - min a.length b.length := by omega
    have h' : budgetLt k (b.length - a.length) = true := by rwa [heq]
    simp only [h', if_true]

/-- Witness for C5: length gap 2 > budget 1 forces the sentinel 2. -/
theorem claim5_length_gap_witness :
    calculateLevenshteinDistance "a".toList "abc".toList (some 1)
      = sentinel (some 1) :=
  claim5_length_gap.1 "a".toList "abc".toList (some 1) (by decide)

example : calculateLevenshteinDistance "kitten".toList "sitting".toList none = 3 := by decide
example : calculateLevenshteinDistance "book".toList "back".toList none = 2 := by decide
example : calculateLevenshteinDistance "a".toList "abcdef".toList (some 2) = 3 := by decide
example : calculateLevenshteinDistance "abcd".toList "xyab".toList (some 2) = 4 := by decide

/-- An item stored at a trie node together with the normalized search
string it was inserted under (a member of the source's `associatedItems`
array). -/
structure Entry (T : Type) where
  storedItem : T
  associatedSearchString : List Char

/-- The `TrieNode` interface of the source.  The JavaScript `Map` of
child nodes is modelled as an association list kept in key insertion
order, matching `Map`'s set/iteration contract. -/
inductive TrieNode (T : Type) : Type where
  | mk (childNodes : List (Char × TrieNode T)) (isCompleteWord : Bool)
      (associatedItems : List (Entry T))

variable {T : Type}

def TrieNode.childNodes : TrieNode T → List (Char × TrieNode T)
  | .mk ch _ _ => ch

def TrieNode.isCompleteWord : TrieNode T → Bool
  | .mk _ cw _ => cw

def TrieNode.associatedItems : TrieNode T → List (Entry T)
  | .mk _ _ items => items

/-- `Map.get` on the child map. -/
def getChild : List (Char × TrieNode T) → Char → Option (TrieNode T)
  | [], _ => none
  | (k, v) :: rest, c => if k = c then some v else getChild rest c

/-- `Map.set` on the child map: replaces the value in place when the key
exists, otherwise appends a new binding at the end (JavaScript `Map`
keeps keys in first-insertion order). -/
def setChild : List (Char × TrieNode T) → Char → TrieNode T →
    List (Char × TrieNode T)
  | [], c, n => [(c, n)]
  | (k, v) :: rest, c, n =>
      if k = c then (k, n) :: rest else (k, v) :: setChild rest c n

/-- A fresh node, as created by the insertion walk and as the initial
`rootNode` of a `FuzzyTrie`. -/
def emptyTrieNode : TrieNode T := .mk [] false []

/-- The walk of `addItemToTrie` over the (already normalized) search
string: find or create the child for each character, then mark the node
reached as a complete word and append the entry. -/
def addAux (entry : Entry T) : List Char → TrieNode T → TrieNode T
  | [], .mk ch _ items => .mk ch true (items ++ [entry])
  | c :: cs, .mk ch cw items =>
      .mk (setChild ch c (addAux entry cs ((getChild ch c).getD emptyTrieNode)))
        cw items

/-- `addItemToTrie` (source lines 157–179): lowercases the search string
and inserts the item at the node spelled by it. -/
def addItemToTrie (rootNode : TrieNode T) (searchString : List Char)
    (itemToAdd : T) : TrieNode T :=
  addAux ⟨itemToAdd, searchString.map Char.toLower⟩
    (searchString.map Char.toLower) rootNode

/-- Building a trie from a sequence of `addItemToTrie` calls, starting
from the fresh root node. -/
def buildTrie (insertions : List (List Char × T)) : TrieNode T :=
  insertions.foldl (fun t ins => addItemToTrie t ins.1 ins.2) emptyTrieNode

/-- One element of the `searchResults` array of `searchItems`. -/
structure SearchResult (T : Type) where
  matchedItem : T
  levenshteinDistance : Nat
  matchedSearchString : List Char

mutual
/-- The recursive `traverseTrieNodes` closure of `searchItems` (source
lines 191–222): at a complete-word node score every associated entry
against the normalized query and keep those within the allowed distance,
then recurse into every child in map order. -/
def traverseTrieNodes (normalizedQuery : List Char) (maxAllowedDistance : Nat) :
    TrieNode T → List Char → List (SearchResult T)
  | .mk childNodes isCW associatedItems, currentPrefix =>
      (if isCW then
        associatedItems.filterMap (fun e =>
          let calculatedDistance :=
            calculateLevenshteinDistance normalizedQuery
              e.associatedSearchString (some maxAllowedDistance)
          if calculatedDistance ≤ maxAllowedDistance then
            some ⟨e.storedItem, calculatedDistance, e.associatedSearchString⟩
          else none)
      else []) ++
        traverseChildNodes normalizedQuery maxAllowedDistance childNodes
          currentPrefix

/-- The `childNodes.forEach` loop of `traverseTrieNodes`. -/
def traverseChildNodes (normalizedQuery : List Char) (maxAllowedDistance : Nat) :
    List (Char × TrieNode T) → List Char → List (SearchResult T)
  | [], _ => []
  | (charToChild, childNode) :: rest, currentPrefix =>
      traverseTrieNodes normalizedQuery maxAllowedDistance childNode
          (currentPrefix ++ [charToChild])
        ++ traverseChildNodes normalizedQuery maxAllowedDistance rest
            currentPrefix
end

/-- The comparator `(a, b) => a.levenshteinDistance - b.levenshteinDistance`
passed to `Array.sort`: sort ascending by distance. -/
def searchResultLE (a b : SearchResult T) : Prop :=
  a.levenshteinDistance ≤ b.levenshteinDistance

instance : DecidableRel (searchResultLE (T := T)) :=
  fun a b => Nat.decLe a.levenshteinDistance b.levenshteinDistance

/-- `searchItems` (source lines 182–234): lowercase the query, gather
the scored results by a full depth-first traversal from the root, sort
them ascending by Levenshtein distance, and return the items.
JavaScript `Array.sort` is required to be stable; any two stable sorts
under the same comparator agree, so it is modelled by the stable
`List.insertionSort`. -/
def searchItems (rootNode : TrieNode T) (queryString : List Char)
    (maxAllowedDistance : Nat := 2) : List T :=
  ((traverseTrieNodes (queryString.map Char.toLower) maxAllowedDistance
        rootNode []).insertionSort searchResultLE).map
    (fun result => result.matchedItem)

example :
    searchItems
      (addItemToTrie (addItemToTrie emptyTrieNode "apple".toList "Apple fruit")
        "banana".toList "Banana fruit")
      "aple".toList 1 = ["Apple fruit"] := by decide

example :
    searchItems
      (addItemToTrie (addItemToTrie emptyTrieNode "apple".toList "Apple fruit")
        "banana".toList "Banana fruit")
      "grape".toList 2 = [] := by decide

/-- Following a character path from a node (spec: every path from root
to a node corresponds to a unique normalized character prefix). -/
def findNode : TrieNode T → List Char → Option (TrieNode T)
  | t, [] => some t
  | t, c :: cs =>
      match getChild t.childNodes c with
      | none => none
      | some child => findNode child cs

/-- The entries stored at the node reached by path `p` (empty when no
such node exists). -/
def entriesAt (t : TrieNode T) (p : List Char) : List (Entry T) :=
  ((findNode t p).map TrieNode.associatedItems).getD []

/-- The complete-word flag of the node reached by path `p` (false when
no such node exists). -/
def termAt (t : TrieNode T) (p : List Char) : Bool :=
  ((findNode t p).map TrieNode.isCompleteWord).getD false

@[simp] theorem findNode_nil (t : TrieNode T) : findNode t [] = some t := rfl

@[simp] theorem findNode_empty_cons (c : Char) (cs : List Char) :
    findNode (emptyTrieNode (T := T)) (c :: cs) = none := by
  simp [findNode, emptyTrieNode, TrieNode.childNodes, getChild]

@[simp] theorem entriesAt_empty (p : List Char) :
    entriesAt (emptyTrieNode (T := T)) p = [] := by
  cases p with
  | nil => rfl
  | cons c cs => simp [entriesAt, findNode_empty_cons]

@[simp] theorem termAt_empty (p : List Char) :
    termAt (emptyTrieNode (T := T)) p = false := by
  cases p with
  | nil => rfl
  | cons c cs => simp [termAt, findNode_empty_cons]

theorem getChild_setChild (ch : List (Char × TrieNode T)) (c c' : Char)
    (n : TrieNode T) :
    getChild (setChild ch c n) c' = if c = c' then some n else getChild ch c' := by
  induction ch with
  | nil => simp [setChild, getChild]
  | cons kv rest ih =>
    obtain ⟨k, v⟩ := kv
    by_cases hk : k = c
    · subst hk
      simp only [setChild, if_pos rfl, getChild]
      by_cases h' : k = c' <;> simp [h']
    · simp only [setChild, if_neg hk, getChild]
      by_cases h' : k = c'
      · subst h'
        rw [if_pos rfl, if_neg (fun hcc => hk hcc.symm), if_pos rfl]
      · rw [if_neg h', if_neg h', ih]

theorem entriesAt_cons (ch : List (Char × TrieNode T)) (cw : Bool)
    (items : List (Entry T)) (c : Char) (ps : List Char) :
    entriesAt (TrieNode.mk ch cw items) (c :: ps)
      = match getChild ch c with
        | none => []
        | some child => entriesAt child ps := by
  cases hg : getChild ch c <;>
    simp [entriesAt, findNode, TrieNode.childNodes, hg]

theorem termAt_cons (ch : List (Char × TrieNode T)) (cw : Bool)
    (items : List (Entry T)) (c : Char) (ps : List Char) :
    termAt (TrieNode.mk ch cw items) (c :: ps)
      = match getChild ch c with
        | none => false
        | some child => termAt child ps := by
  cases hg : getChild ch c <;>
    simp [termAt, findNode, TrieNode.childNodes, hg]

/-- Inserting an entry appends it to the entry list of the node at the
normalized search string and changes no other node's entry list. -/
theorem entriesAt_addAux (e : Entry T) :
    ∀ (cs : List Char) (t : TrieNode T) (p : List Char),
      entriesAt (addAux e cs t) p
        = if p = cs then entriesAt t p ++ [e] else entriesAt t p := by
  intro cs
  induction cs with
  | nil =>
    intro t p
    obtain ⟨ch, cw, items⟩ := t
    cases p with
    | nil => simp [addAux, entriesAt, findNode, TrieNode.associatedItems]
    | cons c' ps =>
      simp only [addAux, entriesAt_cons]
      simp
  | cons c cs' ih =>
    intro t p
    obtain ⟨ch, cw, items⟩ := t
    cases p with
    | nil => simp [addAux, entriesAt, findNode, TrieNode.associatedItems]
    | cons c' ps =>
      simp only [addAux, entriesAt_cons, getChild_setChild]
      by_cases hc : c = c'
      · subst hc
        simp only [if_pos rfl]
        cases hg : getChild ch c with
        | none =>
          have hrec := ih emptyTrieNode ps
          simp only [entriesAt_empty, List.nil_append] at hrec
          simp [hg, hrec, List.cons.injEq]
        | some old =>
          have hrec := ih old ps
          simp [hg, hrec, List.cons.injEq]
      · have hcc : (c' = c) = False := eq_false (fun h => hc h.symm)
        rw [if_neg hc]
        cases hg : getChild ch c' <;> simp [hg, List.cons.injEq, hcc]

/-- Inserting an entry sets the complete-word flag of the node at the
normalized search string and changes no other node's flag. -/
theorem termAt_addAux (e : Entry T) :
    ∀ (cs : List Char) (t : TrieNode T) (p : List Char),
      termAt (addAux e cs t) p = (termAt t p || decide (p = cs)) := by
  intro cs
  induction cs with
  | nil =>
    intro t p
    obtain ⟨ch, cw, items⟩ := t
    cases p with
    | nil => simp [addAux, termAt, findNode, TrieNode.isCompleteWord]
    | cons c' ps =>
      simp only [addAux, termAt_cons]
      simp
  | cons c cs' ih =>
    intro t p
    obtain ⟨ch, cw, items⟩ := t
    cases p with
    | nil => simp [addAux, termAt, findNode, TrieNode.isCompleteWord]
    | cons c' ps =>
      simp only [addAux, termAt_cons, getChild_setChild]
      by_cases hc : c = c'
      · subst hc
        simp only [if_pos rfl]
        cases hg : getChild ch c with
        | none =>
          have hrec := ih emptyTrieNode ps
          simp only [termAt_empty, Bool.false_or] at hrec
          simp [hg, hrec, List.cons.injEq]
        | some old =>
          have hrec := ih old ps
          simp [hg, hrec, List.cons.injEq]
      · have hcc : (c' = c) = False := eq_false (fun h => hc h.symm)
        rw [if_neg hc]
        cases hg : getChild ch c' <;> simp [hg, List.cons.injEq, hcc]

/-- Insertion never removes a node: every path reachable before an
insertion is still reachable after it. -/
theorem findNode_isSome_addAux (e : Entry T) :
    ∀ (cs : List Char) (t : TrieNode T) (p : List Char),
      (findNode t p).isSome = true →
      (findNode (addAux e cs t) p).isSome = true := by
  intro cs
  induction cs with
  | nil =>
    intro t p h
    obtain ⟨ch, cw, items⟩ := t
    cases p with
    | nil => simp [findNode]
    | cons c' ps =>
      simp only [addAux, findNode, TrieNode.childNodes] at h ⊢
      exact h
  | cons c cs' ih =>
    intro t p h
    obtain ⟨ch, cw, items⟩ := t
    cases p with
    | nil => simp [findNode]
    | cons c' ps =>
      simp only [addAux, findNode, TrieNode.childNodes,
        getChild_setChild] at h ⊢
      by_cases hc : c = c'
      · subst hc
        rw [if_pos rfl]
        cases hg : getChild ch c with
        | none => simp [hg] at h
        | some old =>
          rw [hg] at h
          simp only [hg, Option.getD_some]
          exact ih old ps h
      · rw [if_neg hc]
        exact h

/-- The entries stored in a built trie at a path are exactly the
insertions whose normalized search string equals the path, in insertion
order. -/
theorem entriesAt_buildTrie (insertions : List (List Char × T)) (p : List Char) :
    entriesAt (buildTrie insertions) p
      = (insertions.filter (fun x => decide (x.1.map Char.toLower = p))).map
          (fun x => ⟨x.2, x.1.map Char.toLower⟩) := by
  induction insertions using List.reverseRecOn with
  | nil => simp [buildTrie]
  | append_singleton ins x ih =>
    simp only [buildTrie, List.foldl_append, List.foldl_cons, List.foldl_nil]
    rw [show addItemToTrie (List.foldl (fun t ins => addItemToTrie t ins.1 ins.2)
          emptyTrieNode ins) x.1 x.2
        = addAux ⟨x.2, x.1.map Char.toLower⟩ (x.1.map Char.toLower)
            (buildTrie ins) from rfl]
    rw [entriesAt_addAux]
    rw [List.filter_append, List.map_append]
    by_cases hp : p = x.1.map Char.toLower
    · rw [if_pos hp, ih]
      simp [List.filter_singleton, hp]
    · rw [if_neg hp, ih]
      have : ¬(x.1.map Char.toLower = p) := fun h => hp h.symm
      simp [List.filter_singleton, this]

/-- A node of a built trie is a complete word iff some insertion's
normalized search string equals its path. -/
theorem termAt_buildTrie (insertions : List (List Char × T)) (p : List Char) :
    termAt (buildTrie insertions) p
      = insertions.any (fun x => decide (x.1.map Char.toLower = p)) := by
  induction insertions using List.reverseRecOn with
  | nil => simp [buildTrie]
  | append_singleton ins x ih =>
    simp only [buildTrie, List.foldl_append, List.foldl_cons, List.foldl_nil]
    rw [show addItemToTrie (List.foldl (fun t ins => addItemToTrie t ins.1 ins.2)
          emptyTrieNode ins) x.1 x.2
        = addAux ⟨x.2, x.1.map Char.toLower⟩ (x.1.map Char.toLower)
            (buildTrie ins) from rfl]
    rw [termAt_addAux]
    rw [List.any_append, ih]
    by_cases hp : p = x.1.map Char.toLower
    · simp [hp]
    · have : ¬(x.1.map Char.toLower = p) := fun h => hp h.symm
      simp [hp, this]

mutual
/-- All entries stored anywhere in a node's subtree, in depth-first
discovery order (the node's own entries first, then the children in map
order) — the order in which `traverseTrieNodes` encounters them. -/
def collect : TrieNode T → List (Entry T)
  | .mk ch cw items => (if cw then items else []) ++ collectChildren ch

/-- `collect` over a child list. -/
def collectChildren : List (Char × TrieNode T) → List (Entry T)
  | [] => []
  | (_, n) :: rest => collect n ++ collectChildren rest
end

/-- Well-formedness: entries live only at complete-word nodes.  The
insertion walk sets `isCompleteWord` whenever it appends an entry, so
every trie reachable from the fresh root satisfies this. -/
inductive WF : TrieNode T → Prop where
  | mk : ∀ (ch : List (Char × TrieNode T)) (cw : Bool) (items : List (Entry T)),
      (cw = false → items = []) → (∀ cn ∈ ch, WF cn.2) →
      WF (TrieNode.mk ch cw items)

theorem WF.items_eq_nil {ch : List (Char × TrieNode T)} {cw : Bool}
    {items : List (Entry T)} (h : WF (TrieNode.mk ch cw items)) :
    cw = false → items = [] := by
  cases h; assumption

theorem WF.child_wf {ch : List (Char × TrieNode T)} {cw : Bool}
    {items : List (Entry T)} (h : WF (TrieNode.mk ch cw items)) :
    ∀ cn ∈ ch, WF cn.2 := by
  cases h; assumption

theorem WF_empty : WF (emptyTrieNode (T := T)) :=
  WF.mk [] false [] (fun _ => rfl) (fun _ h => absurd h (List.not_mem_nil _))

theorem mem_setChild {ch : List (Char × TrieNode T)} {c : Char}
    {n : TrieNode T} :
    ∀ q ∈ setChild ch c n, q.2 = n ∨ q ∈ ch := by
  induction ch with
  | nil =>
    intro q hq
    simp only [setChild, List.mem_singleton] at hq
    left; rw [hq]
  | cons kv rest ih =>
    obtain ⟨k, v⟩ := kv
    intro q hq
    by_cases hk : k = c
    · simp only [setChild, if_pos hk] at hq
      rcases List.mem_cons.1 hq with rfl | hq
      · left; rfl
      · right; exact List.mem_cons_of_mem _ hq
    · simp only [setChild, if_neg hk] at hq
      rcases List.mem_cons.1 hq with rfl | hq
      · right; exact List.mem_cons_self _ _
      · rcases ih q hq with h | h
        · left; exact h
        · right; exact List.mem_cons_of_mem _ h

theorem getChild_mem {ch : List (Char × TrieNode T)} {c : Char}
    {v : TrieNode T} (h : getChild ch c = some v) : ∃ k, (k, v) ∈ ch := by
  induction ch with
  | nil => simp [getChild] at h
  | cons kv rest ih =>
    obtain ⟨k, w⟩ := kv
    by_cases hk : k = c
    · simp only [getChild, if_pos hk, Option.some.injEq] at h
      exact ⟨k, by rw [h]; exact List.mem_cons_self _ _⟩
    · simp only [getChild, if_neg hk] at h
      obtain ⟨k', hk'⟩ := ih h
      exact ⟨k', List.mem_cons_of_mem _ hk'⟩

/-- Insertion preserves well-formedness. -/
theorem WF_addAux (e : Entry T) :
    ∀ (cs : List Char) (t : TrieNode T), WF t → WF (addAux e cs t) := by
  intro cs
  induction cs with
  | nil =>
    intro t hwf
    obtain ⟨ch, cw, items⟩ := t
    exact WF.mk ch true (items ++ [e]) (fun h => nomatch h) hwf.child_wf
  | cons c cs' ih =>
    intro t hwf
    obtain ⟨ch, cw, items⟩ := t
    refine WF.mk _ cw items hwf.items_eq_nil ?_
    intro cn hcn
    rcases mem_setChild cn hcn with h2 | h2
    · rw [h2]
      refine ih _ ?_
      cases hg : getChild ch c with
      | none => simpa [hg] using WF_empty
      | some old =>
        obtain ⟨k, hk⟩ := getChild_mem hg
        simpa [hg] using hwf.child_wf (k, old) hk
    · exact hwf.child_wf cn h2

theorem collectChildren_append (l1 l2 : List (Char × TrieNode T)) :
    collectChildren (l1 ++ l2) = collectChildren l1 ++ collectChildren l2 := by
  induction l1 with
  | nil => simp [collectChildren]
  | cons kv rest ih =>
    obtain ⟨k, v⟩ := kv
    simp [collectChildren, ih, List.append_assoc]

@[simp] theorem collect_empty : collect (emptyTrieNode (T := T)) = [] := by
  simp [collect, emptyTrieNode, collectChildren]

/-- `Map.set` either appends a fresh binding at the end (absent key) or
replaces the bound value in place (present key). -/
theorem setChild_split (ch : List (Char × TrieNode T)) (c : Char)
    (n : TrieNode T) :
    (getChild ch c = none ∧ setChild ch c n = ch ++ [(c, n)]) ∨
    (∃ l1 k v l2, ch = l1 ++ (k, v) :: l2 ∧ getChild ch c = some v ∧
        setChild ch c n = l1 ++ (k, n) :: l2) := by
  induction ch with
  | nil => left; exact ⟨rfl, rfl⟩
  | cons kv rest ih =>
    obtain ⟨k, v⟩ := kv
    by_cases hk : k = c
    · right
      exact ⟨[], k, v, rest, by simp, by simp [getChild, hk],
        by simp [setChild, hk]⟩
    · rcases ih with ⟨h1, h2⟩ | ⟨l1, k', v', l2, he, hg, hs⟩
      · left
        exact ⟨by simp [getChild, hk, h1], by simp [setChild, hk, h2]⟩
      · right
        exact ⟨(k, v) :: l1, k', v', l2, by simp [he],
          by simp [getChild, hk, hg], by simp [setChild, hk, hs]⟩

/-- Inserting an entry adds exactly that entry to the multiset of stored
entries (for well-formed tries). -/
theorem collect_addAux (e : Entry T) :
    ∀ (cs : List Char) (t : TrieNode T), WF t →
      collect (addAux e cs t) ~ collect t ++ [e] := by
  intro cs
  induction cs with
  | nil =>
    intro t hwf
    obtain ⟨ch, cw, items⟩ := t
    rw [← Multiset.coe_eq_coe]
    cases cw with
    | true =>
      simp only [addAux, collect, if_true, ← Multiset.coe_add]
      simp only [add_comm, add_left_comm, add_assoc]
    | false =>
      have hnil : items = [] := hwf.items_eq_nil rfl
      subst hnil
      simp only [addAux, collect, if_true, Bool.false_eq_true, if_false,
        List.nil_append, ← Multiset.coe_add]
      simp only [add_comm, add_left_comm, add_assoc]
  | cons c cs' ih =>
    intro t hwf
    obtain ⟨ch, cw, items⟩ := t
    rcases setChild_split ch c (addAux e cs' ((getChild ch c).getD emptyTrieNode))
      with ⟨hg, hs⟩ | ⟨l1, k, v, l2, he, hg, hs⟩
    · simp only [hg, Option.getD_none] at hs
      have hnew : collect (addAux e cs' emptyTrieNode) ~ ([e] : List (Entry T)) := by
        have := ih emptyTrieNode WF_empty
        simpa using this
      rw [← Multiset.coe_eq_coe] at hnew ⊢
      simp only [addAux, hg, Option.getD_none, collect, hs,
        collectChildren_append, collectChildren, List.append_nil,
        ← Multiset.coe_add]
      rw [hnew]
      simp only [add_comm, add_left_comm, add_assoc]
    · have hv : WF v := by
        refine hwf.child_wf (k, v) ?_
        rw [he]
        exact List.mem_append_right _ (List.mem_cons_self _ _)
      have hnew : collect (addAux e cs' v) ~ collect v ++ [e] := ih v hv
      subst he
      simp only [hg, Option.getD_some] at hs
      rw [← Multiset.coe_eq_coe] at hnew ⊢
      simp only [addAux, hg, Option.getD_some, collect, hs,
        collectChildren_append, collectChildren, ← Multiset.coe_add] at hnew ⊢
      rw [hnew]
      simp only [add_comm, add_left_comm, add_assoc]

/-- The per-entry scoring step of `searchItems` (the body of the
`associatedItems.forEach` callback). -/
def scoreEntry (normalizedQuery : List Char) (maxAllowedDistance : Nat)
    (e : Entry T) : Option (SearchResult T) :=
  let calculatedDistance :=
    calculateLevenshteinDistance normalizedQuery e.associatedSearchString
      (some maxAllowedDistance)
  if calculatedDistance ≤ maxAllowedDistance then
    some ⟨e.storedItem, calculatedDistance, e.associatedSearchString⟩
  else none

mutual
/-- The traversal gathers exactly the scored entries of the subtree, in
discovery order; the `currentPrefix` argument does not influence the
result. -/
theorem traverseTrieNodes_eq_collect (nq : List Char) (d : Nat) :
    ∀ (t : TrieNode T) (pref : List Char),
      traverseTrieNodes nq d t pref = (collect t).filterMap (scoreEntry nq d)
  | .mk ch cw items, pref => by
    rw [show traverseTrieNodes nq d (.mk ch cw items) pref
        = (if cw then items.filterMap (scoreEntry nq d) else [])
          ++ traverseChildNodes nq d ch pref from rfl]
    rw [traverseChildNodes_eq_collect nq d ch pref]
    rw [show collect (TrieNode.mk ch cw items)
        = (if cw then items else []) ++ collectChildren ch from rfl]
    rw [List.filterMap_append]
    cases cw <;> simp

theorem traverseChildNodes_eq_collect (nq : List Char) (d : Nat) :
    ∀ (ch : List (Char × TrieNode T)) (pref : List Char),
      traverseChildNodes nq d ch pref
        = (collectChildren ch).filterMap (scoreEntry nq d)
  | [], pref => by simp [traverseChildNodes, collectChildren]
  | (c, n) :: rest, pref => by
    rw [show traverseChildNodes nq d ((c, n) :: rest) pref
        = traverseTrieNodes nq d n (pref ++ [c])
          ++ traverseChildNodes nq d rest pref from rfl]
    rw [traverseTrieNodes_eq_collect nq d n (pref ++ [c]),
      traverseChildNodes_eq_collect nq d rest pref]
    rw [show collectChildren ((c, n) :: rest)
        = collect n ++ collectChildren rest from rfl]
    rw [List.filterMap_append]
end

/-- Scoring keeps an entry exactly when its true Levenshtein distance to
the query is within the budget (by `calc_le_iff`), and records the
computed distance. -/
theorem filterMap_scoreEntry (nq : List Char) (d : Nat) (l : List (Entry T)) :
    l.filterMap (scoreEntry nq d)
      = (l.filter (fun e => decide (lev nq e.associatedSearchString ≤ d))).map
          (fun e => ⟨e.storedItem,
            calculateLevenshteinDistance nq e.associatedSearchString (some d),
            e.associatedSearchString⟩) := by
  induction l with
  | nil => simp
  | cons a l ih =>
    by_cases h : lev nq a.associatedSearchString ≤ d
    · have hc : calculateLevenshteinDistance nq a.associatedSearchString (some d) ≤ d :=
        (calc_le_iff _ _ _).2 h
      simp [List.filterMap_cons, List.filter_cons, scoreEntry, hc, h, ih]
    · have hc : ¬ calculateLevenshteinDistance nq a.associatedSearchString (some d) ≤ d :=
        fun hcc => h ((calc_le_iff _ _ _).1 hcc)
      simp [List.filterMap_cons, List.filter_cons, scoreEntry, hc, h, ih]

theorem buildTrie_concat (ins : List (List Char × T)) (x : List Char × T) :
    buildTrie (ins ++ [x]) = addItemToTrie (buildTrie ins) x.1 x.2 := by
  simp [buildTrie, List.foldl_append]

/-- Every trie built from the fresh root by insertions is well-formed. -/
theorem WF_buildTrie (insertions : List (List Char × T)) :
    WF (buildTrie insertions) := by
  induction insertions using List.reverseRecOn with
  | nil => exact WF_empty
  | append_singleton ins x ih =>
    rw [buildTrie_concat]
    exact WF_addAux _ _ _ ih

/-- The multiset of entries stored in a built trie is exactly the
insertions (item with normalized search string). -/
theorem collect_buildTrie (insertions : List (List Char × T)) :
    collect (buildTrie insertions)
      ~ insertions.map (fun x => (⟨x.2, x.1.map Char.toLower⟩ : Entry T)) := by
  induction insertions using List.reverseRecOn with
  | nil => simp [buildTrie]
  | append_singleton ins x ih =>
    rw [buildTrie_concat]
    have h1 := collect_addAux ⟨x.2, x.1.map Char.toLower⟩ (x.1.map Char.toLower)
      (buildTrie ins) (WF_buildTrie ins)
    refine h1.trans ?_
    simp only [List.map_append, List.map_cons, List.map_nil]
    exact ih.append_right [⟨x.2, x.1.map Char.toLower⟩]

instance : IsTotal (SearchResult T) searchResultLE :=
  ⟨fun a b => Nat.le_total a.levenshteinDistance b.levenshteinDistance⟩

instance : IsTrans (SearchResult T) searchResultLE :=
  ⟨fun _ _ _ h1 h2 => Nat.le_trans h1 h2⟩

/-- Up to the distance sort, `searchItems` returns exactly the items of
the stored entries whose true distance to the query is within budget. -/
theorem searchItems_perm (t : TrieNode T) (q : List Char) (d : Nat) :
    searchItems t q d
      ~ ((collect t).filter
          (fun e => decide (lev (q.map Char.toLower) e.associatedSearchString ≤ d))).map
          Entry.storedItem := by
  unfold searchItems
  refine (List.Perm.map _ (List.perm_insertionSort searchResultLE _)).trans ?_
  rw [traverseTrieNodes_eq_collect, filterMap_scoreEntry, List.map_map]
  rfl

/-- Stability of the distance sort: results with any one given distance
appear in the sorted output exactly in their discovery order. -/
theorem insertionSort_filter_key (l : List (SearchResult T)) (k : Nat) :
    (List.insertionSort searchResultLE l).filter
        (fun r => decide (r.levenshteinDistance = k))
      = l.filter (fun r => decide (r.levenshteinDistance = k)) := by
  have hpair : (l.filter (fun r => decide (r.levenshteinDistance = k))).Pairwise
      searchResultLE := by
    refine List.pairwise_of_forall_mem_list ?_
    intro a ha b hb
    have hak := (List.mem_filter.1 ha).2
    have hbk := (List.mem_filter.1 hb).2
    simp only [decide_eq_true_eq] at hak hbk
    show a.levenshteinDistance ≤ b.levenshteinDistance
    rw [hak, hbk]
  have h1 : l.filter (fun r => decide (r.levenshteinDistance = k))
      <+ List.insertionSort searchResultLE l :=
    List.sublist_insertionSort hpair (List.filter_sublist l)
  have h3 : l.filter (fun r => decide (r.levenshteinDistance = k))
      <+ (List.insertionSort searchResultLE l).filter
        (fun r => decide (r.levenshteinDistance = k)) := by
    have h4 := h1.filter (fun r => decide (r.levenshteinDistance = k))
    rwa [List.filter_eq_self.2 (fun a ha => (List.mem_filter.1 ha).2)] at h4
  have h2 : (List.insertionSort searchResultLE l).filter
        (fun r => decide (r.levenshteinDistance = k))
      ~ l.filter (fun r => decide (r.levenshteinDistance = k)) :=
    (List.perm_insertionSort searchResultLE l).filter _
  exact (h3.eq_of_length h2.length_eq.symm).symm

/-- **C3**: over any built trie, `searchItems` returns one output item
per stored entry whose normalized search string is within Levenshtein
distance `d` of the lowercased query and none for entries beyond `d`
(sentinel-scored entries are rejected since the sentinel exceeds the
budget); duplicate insertions each contribute their own element, the
empty trie yields `[]` for every query, and `d` defaults to 2. -/
theorem claim3_search_filter :
    (∀ (insertions : List (List Char × T)) (q : List Char) (d : Nat),
        searchItems (buildTrie insertions) q d
          ~ (((insertions.map
                (fun x => (⟨x.2, x.1.map Char.toLower⟩ : Entry T))).filter
              (fun e =>
                decide (lev (q.map Char.toLower) e.associatedSearchString ≤ d))).map
            Entry.storedItem))
    ∧ (∀ (q : List Char) (d : Nat), searchItems (emptyTrieNode (T := T)) q d = [])
    ∧ searchItems
        (buildTrie [("fruit".toList, "Apple"), ("fruit".toList, "Banana")])
        "fruit".toList 0 = ["Apple", "Banana"]
    ∧ (∀ (t : TrieNode T) (q : List Char), searchItems t q = searchItems t q 2) := by
  refine ⟨?_, ?_, by decide, fun t q => rfl⟩
  · intro ins q d
    exact (searchItems_perm _ _ _).trans
      (List.Perm.map _ (List.Perm.filter _ (collect_buildTrie ins)))
  · intro q d
    rfl

/-- **C4**: the output of `searchItems` is the projection of a result
list sorted by non-decreasing computed Levenshtein distance: a result
with strictly smaller distance appears earlier. -/
theorem claim4_sorted (t : TrieNode T) (q : List Char) (d : Nat) :
    searchItems t q d
      = (List.insertionSort searchResultLE
          (traverseTrieNodes (q.map Char.toLower) d t [])).map
        SearchResult.matchedItem
    ∧ (List.insertionSort searchResultLE
        (traverseTrieNodes (q.map Char.toLower) d t [])).Pairwise
      searchResultLE :=
  ⟨rfl, List.sorted_insertionSort searchResultLE _⟩

/-- **C6**: both operations lowercase their string argument before any
other use, so search results are invariant under case variants of the
query, insertion is invariant under case variants of the search string,
and after inserting under "Apple" an exact search for "APPLE" returns
exactly the stored item. -/
theorem claim6_case_insensitive :
    (∀ (t : TrieNode T) (q q' : List Char) (d : Nat),
        q.map Char.toLower = q'.map Char.toLower →
        searchItems t q d = searchItems t q' d)
    ∧ (∀ (t : TrieNode T) (s s' : List Char) (it : T),
        s.map Char.toLower = s'.map Char.toLower →
        addItemToTrie t s it = addItemToTrie t s' it)
    ∧ (∀ (it : T),
        searchItems (addItemToTrie emptyTrieNode "Apple".toList it)
          "APPLE".toList 0 = [it]) := by
  refine ⟨?_, ?_, fun it => rfl⟩
  · intro t q q' d h
    unfold searchItems
    rw [h]
  · intro t s s' it h
    unfold addItemToTrie
    rw [h]

/-- Witness for C6 at a concrete case variant. -/
theorem claim6_case_insensitive_witness :
    searchItems (emptyTrieNode (T := Nat)) "AbC".toList 1
      = searchItems (emptyTrieNode (T := Nat)) "aBc".toList 1 :=
  claim6_case_insensitive.1 emptyTrieNode "AbC".toList "aBc".toList 1 (by decide)

/-- **C7**: in every built trie, the node reached by a path `p` stores
only entries whose normalized search string equals `p`, is a complete
word iff some insertion's lowercased search string equals `p`
(equivalently, iff its entry list is non-empty); and each insertion only
grows the structure: nodes stay reachable, entry lists only get appended
to, and complete-word marks are never cleared. -/
theorem claim7_trie_invariant :
    (∀ (insertions : List (List Char × T)) (p : List Char) (n : TrieNode T),
        findNode (buildTrie insertions) p = some n →
        (∀ e ∈ n.associatedItems, e.associatedSearchString = p)
        ∧ (n.isCompleteWord = true ↔
            ∃ x ∈ insertions, x.1.map Char.toLower = p)
        ∧ (n.isCompleteWord = true ↔ n.associatedItems ≠ []))
    ∧ (∀ (t : TrieNode T) (s : List Char) (it : T) (p : List Char),
        ((findNode t p).isSome = true →
          (findNode (addItemToTrie t s it) p).isSome = true)
        ∧ (∃ tl, entriesAt (addItemToTrie t s it) p = entriesAt t p ++ tl)
        ∧ (termAt t p = true → termAt (addItemToTrie t s it) p = true)) := by
  constructor
  · intro ins p n hfn
    have hent : n.associatedItems
        = (ins.filter (fun x => decide (x.1.map Char.toLower = p))).map
          (fun x => ⟨x.2, x.1.map Char.toLower⟩) := by
      have h := entriesAt_buildTrie ins p
      simpa [entriesAt, hfn] using h
    have hterm : n.isCompleteWord
        = ins.any (fun x => decide (x.1.map Char.toLower = p)) := by
      have h := termAt_buildTrie ins p
      simpa [termAt, hfn] using h
    refine ⟨?_, ?_, ?_⟩
    · intro e he
      rw [hent] at he
      obtain ⟨x, hx, rfl⟩ := List.mem_map.1 he
      exact of_decide_eq_true (List.mem_filter.1 hx).2
    · rw [hterm]
      simp only [List.any_eq_true, decide_eq_true_eq]
    · rw [hterm, hent]
      simp only [List.any_eq_true, ne_eq, List.map_eq_nil_iff,
        List.filter_eq_nil_iff, decide_eq_true_eq, not_forall]
      constructor
      · rintro ⟨x, hx, hxp⟩
        exact ⟨x, hx, by simp [hxp]⟩
      · rintro ⟨x, hx, hxp⟩
        refine ⟨x, hx, ?_⟩
        by_contra hne
        simp [hne] at hxp
  · intro t s it p
    refine ⟨findNode_isSome_addAux _ _ _ _, ?_, ?_⟩
    · rw [show addItemToTrie t s it
          = addAux ⟨it, s.map Char.toLower⟩ (s.map Char.toLower) t from rfl,
        entriesAt_addAux]
      by_cases hp : p = s.map Char.toLower
      · exact ⟨[⟨it, s.map Char.toLower⟩], by rw [if_pos hp]⟩
      · exact ⟨[], by rw [if_neg hp, List.append_nil]⟩
    · intro h
      rw [show addItemToTrie t s it
          = addAux ⟨it, s.map Char.toLower⟩ (s.map Char.toLower) t from rfl,
        termAt_addAux, h, Bool.true_or]

/-- Witness for C7 on the one-insertion trie over the path "a". -/
theorem claim7_trie_invariant_witness :
    (∀ e ∈ (TrieNode.mk ([] : List (Char × TrieNode Nat)) true
        [⟨(0 : Nat), ['a']⟩]).associatedItems, e.associatedSearchString = ['a'])
    ∧ ((TrieNode.mk ([] : List (Char × TrieNode Nat)) true
          [⟨(0 : Nat), ['a']⟩]).isCompleteWord = true ↔
        ∃ x ∈ [(['a'], (0 : Nat))], x.1.map Char.toLower = ['a'])
    ∧ ((TrieNode.mk ([] : List (Char × TrieNode Nat)) true
          [⟨(0 : Nat), ['a']⟩]).isCompleteWord = true ↔
        (TrieNode.mk ([] : List (Char × TrieNode Nat)) true
          [⟨(0 : Nat), ['a']⟩]).associatedItems ≠ []) :=
  claim7_trie_invariant.1 [(['a'], 0)] ['a']
    (TrieNode.mk [] true [⟨0, ['a']⟩]) rfl

/-- One session operation against the mutable `FuzzyTrie` object. -/
inductive TrieOp (T : Type) where
  | add (searchString : List Char) (itemToAdd : T)
  | search (queryString : List Char) (maxAllowedDistance : Nat)

/-- The state transition of one public operation.  `addItemToTrie`
replaces the trie (the source mutates it in place); the body of
`searchItems`/`traverseTrieNodes` contains no write to any node field —
it only reads `childNodes`, `isCompleteWord` and `associatedItems` and
pushes into the local `searchResults` array — so the trie component
after a search is the unchanged trie. -/
def runOp (t : TrieNode T) : TrieOp T → TrieNode T × Option (List T)
  | .add s it => (addItemToTrie t s it, none)
  | .search q d => (t, some (searchItems t q d))

/-- **C8**: `searchItems` never mutates the trie: the state after a
search is the same trie (so every node reachable by any path, with its
children, flag, and entries, is unchanged), and two consecutive searches
with the same arguments return equal results. -/
theorem claim8_search_pure (t : TrieNode T) (q : List Char) (d : Nat) :
    (runOp t (.search q d)).1 = t
    ∧ (∀ p, findNode (runOp t (.search q d)).1 p = findNode t p)
    ∧ (runOp (runOp t (.search q d)).1 (.search q d)).2
        = (runOp t (.search q d)).2 :=
  ⟨rfl, fun _ => rfl, rfl⟩

/-- **C9**: with budget 0, `searchItems` returns exactly the items that
were inserted under a normalized search string equal to the lowercased
query, because the bounded distance is 0 exactly on equal strings and
positive otherwise. -/
theorem claim9_exact_budget_zero :
    (∀ (insertions : List (List Char × T)) (q : List Char),
        searchItems (buildTrie insertions) q 0
          ~ ((insertions.filter
              (fun x => decide (x.1.map Char.toLower = q.map Char.toLower))).map
            Prod.snd))
    ∧ (∀ a b : List Char,
        calculateLevenshteinDistance a b (some 0) = 0 ↔ a = b) := by
  constructor
  · intro ins q
    refine (searchItems_perm _ _ _).trans ?_
    refine (List.Perm.map _ (List.Perm.filter _ (collect_buildTrie ins))).trans ?_
    rw [List.filter_map, List.map_map]
    have hcond : ∀ x ∈ ins,
        ((fun e => decide (lev (q.map Char.toLower)
              e.associatedSearchString ≤ 0))
            ∘ fun x => (⟨x.2, x.1.map Char.toLower⟩ : Entry T)) x
          = decide (x.1.map Char.toLower = q.map Char.toLower) := by
      intro x _
      simp only [Function.comp_apply, decide_eq_decide, Nat.le_zero]
      rw [lev_eq_zero_iff]
      exact eq_comm
    rw [List.filter_congr hcond]
    exact List.Perm.refl _
  · intro a b
    rw [← Nat.le_zero, calc_le_iff, Nat.le_zero, lev_eq_zero_iff]

/-- **C10**: `searchItems` is a pure function of the insertion sequence
and its arguments; its output is the item projection of the stable
distance sort of the traversal results, results with equal distance keep
their depth-first discovery order, and entries within each node keep
insertion order (children are iterated in first-creation order by the
insertion-ordered child map). -/
theorem claim10_stable_ties :
    (∀ (insertions : List (List Char × T)) (q : List Char) (d : Nat),
        searchItems (buildTrie insertions) q d
          = (List.insertionSort searchResultLE
              (traverseTrieNodes (q.map Char.toLower) d
                (buildTrie insertions) [])).map
            SearchResult.matchedItem)
    ∧ (∀ (t : TrieNode T) (q : List Char) (d : Nat) (k : Nat),
        (List.insertionSort searchResultLE
            (traverseTrieNodes (q.map Char.toLower) d t [])).filter
          (fun r => decide (r.levenshteinDistance = k))
          = (traverseTrieNodes (q.map Char.toLower) d t []).filter
            (fun r => decide (r.levenshteinDistance = k)))
    ∧ (∀ (insertions : List (List Char × T)) (p : List Char),
        entriesAt (buildTrie insertions) p
          = (insertions.filter (fun x => decide (x.1.map Char.toLower = p))).map
            (fun x => ⟨x.2, x.1.map Char.toLower⟩)) :=
  ⟨fun _ _ _ => rfl,
    fun _ _ _ k => insertionSort_filter_key _ k,
    fun insertions p => entriesAt_buildTrie insertions p⟩

end Crucai
